import Mathlib

/-!
Shallow embedding of the `flid-server` simulation core (`src/game.rs`,
`src/main.rs`) and proofs about it.

Modelling conventions:
* Rust `f32`/`f64` quantities (flow amounts, blob amounts, sizes, link
  quality, timestamps) are modelled by exact rationals `ℚ`; the claims under
  study are about the algorithm's exact arithmetic semantics.
* `Point::dist` takes a square root; all the source ever does with distances
  is compare them (square root is strictly monotone), so the embedding works
  with squared distances (`distSq`) and squared thresholds (`100 ↦ 10000`).
  `Node::time_to` (distance / 100, used only to stamp blob arrival times) is
  abstracted as an explicit travel-time parameter `tt : Node → Node → ℚ`;
  no claim depends on its value.
* `HashMap` lookups that panic in Rust on a missing key (`nodes[&id]`,
  `links[&id]`, `outflows[&from.id][0]`) are modelled totally with explicit
  defaults; each such site is marked with a comment. On well-formed worlds
  (the ones every claim quantifies over) the defaults are never reached.
* `thread_rng` draws are modelled by explicit streams of draw values (the
  `Gen` structure); a real execution corresponds to streams long enough not
  to run out.
* Rust's in-place iteration with mutation becomes explicit recursion over
  the flow list threading the auxiliary maps (`inflows`, `outflows`), which
  are modelled as functions with the HashMap's absent-key behaviour made
  explicit.
-/

namespace Flid

/-- Player, node, link and flow identifiers (`type PlayerId = usize` etc.). -/
abbrev PlayerId := Nat

abbrev NodeId := Nat

abbrev LinkId := Nat

abbrev FlowId := Nat

/-- `struct Point {x: i64, y: i64}`. -/
structure Point where
  x : Int
  y : Int
deriving DecidableEq, Repr

/-- `struct Node {id, pos, size}`. -/
structure Node where
  id : NodeId
  pos : Point
  size : ℚ
deriving DecidableEq, Repr

/-- `struct Link {id, quality, n1, n2}`. -/
structure Link where
  id : LinkId
  quality : ℚ
  n1 : NodeId
  n2 : NodeId
deriving DecidableEq, Repr

/-- `enum Dir { None, To1(PlayerId), To2(PlayerId) }`. -/
inductive Dir where
  | None : Dir
  | To1 : PlayerId → Dir
  | To2 : PlayerId → Dir
deriving DecidableEq, Repr

/-- `struct Blob {amount, arrive_at}`. -/
structure Blob where
  amount : ℚ
  arrive_at : ℚ
deriving DecidableEq, Repr

/-- `enum FlowHost { Link{id, dir, blobs}, Node(NodeId) }`. -/
inductive FlowHost where
  | Link : LinkId → Dir → List Blob → FlowHost
  | Node : NodeId → FlowHost
deriving DecidableEq, Repr

/-- `struct Flow {id, amount, host}`. -/
structure Flow where
  id : FlowId
  amount : ℚ
  host : FlowHost
deriving DecidableEq, Repr

/-- `struct Game {nodes, links, flows}` (the World aggregate). -/
structure Game where
  nodes : List Node
  links : List Link
  flows : List Flow
deriving DecidableEq, Repr

/-- `Point::dist` squared: the source compares `sqrt`-distances, which is
equivalent to comparing these squares. -/
def distSq (p q : Point) : Int :=
  (p.x - q.x) ^ 2 + (p.y - q.y) ^ 2

/-- `Link::has_id`. -/
def Link.has_id (l : Link) (i : NodeId) : Bool :=
  l.n1 == i || l.n2 == i

/-- `Link::between_ids`. -/
def Link.between_ids (l : Link) (a b : NodeId) : Bool :=
  l.has_id a && l.has_id b

/-- Whether a direction is set (the source's `Dir::None => continue` guards). -/
def Dir.isSet : Dir → Bool
  | .None => false
  | .To1 _ => true
  | .To2 _ => true

/-- The node a directed link flow points *to* (`Dir::To1 => link.n1,
Dir::To2 => link.n2`); the `None` case is unreachable behind `Dir.isSet`. -/
def Link.toNode (l : Link) : Dir → NodeId
  | .To1 _ => l.n1
  | .To2 _ => l.n2
  | .None => l.n1

/-- The node a directed link flow draws *from* (`Dir::To1 => link.n2,
Dir::To2 => link.n1`); the `None` case is unreachable behind `Dir.isSet`. -/
def Link.fromNode (l : Link) : Dir → NodeId
  | .To1 _ => l.n2
  | .To2 _ => l.n1
  | .None => l.n1

/-- The source's `nodes` HashMap (keyed by `n.id`): lookup by id. A missing
key panics in Rust (`nodes[&id]`); the total model returns a default node
carrying the requested id, size 0. -/
def nodeOfId (ns : List Node) (i : NodeId) : Node :=
  (ns.find? (fun n => n.id == i)).getD ⟨i, ⟨0, 0⟩, 0⟩

/-- The source's `links` HashMap (keyed by `l.id`): lookup by id, with a
default for the (panicking) missing-key case. -/
def linkOfId (ls : List Link) (i : LinkId) : Link :=
  (ls.find? (fun l => l.id == i)).getD ⟨i, 0, 0, 0⟩

/-- Inflow accumulator of `Game::calc`'s first loop: the `inflows` HashMap,
modelled as a total function defaulting to 0 (the source checks
`contains_key` before adding, which is the same as adding a 0 default). -/
abbrev InflowMap := NodeId → ℚ

/-- Outflow accumulator of `Game::calc`'s second and third loops: the
`outflows : HashMap<NodeId, Vec<f32>>`, with the present/absent distinction
kept (`Option`), since the source branches on `contains_key`. -/
abbrev OutflowMap := NodeId → Option (List ℚ)

/-- First loop of `Game::calc` (inflow settlement): for every directed
link-hosted flow, credit every blob with `arrive_at <= now` to the
destination node's inflow and retain only the unarrived blobs; for every
node-hosted flow, add `size * dt` plus the inflow accumulated so far. -/
def pass1 (ns : List Node) (ls : List Link) (now dt : ℚ) :
    InflowMap → List Flow → List Flow
  | _, [] => []
  | infl, f :: rest =>
    match f.host with
    | .Link lid dir blobs =>
      if dir.isSet then
        let link := linkOfId ls lid
        let dst := nodeOfId ns (link.toNode dir)
        let arrived := ((blobs.filter (fun b => b.arrive_at ≤ now)).map Blob.amount).sum
        let infl' : InflowMap := fun i => if i = dst.id then infl i + arrived else infl i
        let blobs' := blobs.filter (fun b => now < b.arrive_at)
        { f with host := .Link lid dir blobs' } :: pass1 ns ls now dt infl' rest
      else
        f :: pass1 ns ls now dt infl rest
    | .Node nid =>
      { f with amount := f.amount + (nodeOfId ns nid).size * dt + infl nid } ::
        pass1 ns ls now dt infl rest

/-- The node branch of `Game::calc`'s second loop, lines 224-239 of
`game.rs`: given the reservoir amount and the list of requested draws, either
subtract the full requested sum (when it is strictly below the reservoir) or
scale every draw by `factor = amount / sum` and zero the reservoir. -/
def applyOutflow (a : ℚ) (l : List ℚ) : ℚ × List ℚ :=
  let s := l.sum
  if s < a then (a - s, l)
  else (0, l.map (fun x => x * (a / s)))

/-- Second loop of `Game::calc` (outflow computation and application): every
directed link-hosted flow pushes a fixed-rate draw `dt * 3` onto its origin
node's outflow list; every node-hosted flow whose id has an outflow entry is
settled with `applyOutflow`. Returns the rewritten flows and the final
outflow map (used by the third loop). -/
def pass2 (ns : List Node) (ls : List Link) (dt : ℚ) :
    OutflowMap → List Flow → List Flow × OutflowMap
  | out, [] => ([], out)
  | out, f :: rest =>
    match f.host with
    | .Link lid dir _ =>
      if dir.isSet then
        let link := linkOfId ls lid
        let fr := nodeOfId ns (link.fromNode dir)
        let amount := dt * 3
        -- `insert vec![amount]` when absent, `push(amount)` when present
        let out' : OutflowMap := fun i =>
          if i = fr.id then some (((out fr.id).getD []) ++ [amount]) else out i
        let r := pass2 ns ls dt out' rest
        (f :: r.1, r.2)
      else
        let r := pass2 ns ls dt out rest
        (f :: r.1, r.2)
    | .Node nid =>
      match out nid with
      | some l =>
        let al := applyOutflow f.amount l
        let out' : OutflowMap := fun i => if i = nid then some al.2 else out i
        let r := pass2 ns ls dt out' rest
        ({ f with amount := al.1 } :: r.1, r.2)
      | none =>
        let r := pass2 ns ls dt out rest
        (f :: r.1, r.2)

/-- Third loop of `Game::calc` (blob injection): every directed link-hosted
flow pops the front of its origin node's outflow list, appends a blob of
that amount arriving at `now + travel time`, and sets its displayed amount
to the sum of its queued blob amounts.  The loop `break`s at the first
node-hosted flow, leaving the rest of the list untouched.  The source
indexes `outflows[&from.id][0]` (a panic when missing or empty); the total
model reads 0 in that case. -/
def pass3 (ns : List Node) (ls : List Link) (now : ℚ) (tt : Node → Node → ℚ) :
    OutflowMap → List Flow → List Flow
  | _, [] => []
  | out, f :: rest =>
    match f.host with
    | .Node _ => f :: rest
    | .Link lid dir blobs =>
      if dir.isSet then
        let link := linkOfId ls lid
        let fr := nodeOfId ns (link.fromNode dir)
        let dst := nodeOfId ns (link.toNode dir)
        let l := (out fr.id).getD []
        let amount := l.headD 0
        let out' : OutflowMap := fun i => if i = fr.id then some l.tail else out i
        let blobs' := blobs ++ [⟨amount, now + tt fr dst⟩]
        { f with amount := (blobs'.map Blob.amount).sum, host := .Link lid dir blobs' } ::
          pass3 ns ls now tt out' rest
      else
        f :: pass3 ns ls now tt out rest

/-- `Game::calc` (named `calcTick` here because `calc` is a Lean keyword):
`new_time := precise_time_s()` is the `now` parameter, `dtime := now -
old_time`; the three loops run in order and the new time is returned. -/
def Game.calcTick (g : Game) (old_time now : ℚ) (tt : Node → Node → ℚ) : Game × ℚ :=
  let dt := now - old_time
  let fl1 := pass1 g.nodes g.links now dt (fun _ => 0) g.flows
  let p2 := pass2 g.nodes g.links dt (fun _ => none) fl1
  let fl3 := pass3 g.nodes g.links now tt p2.2 p2.1
  ({ g with flows := fl3 }, now)

/-- Body of `Game::change_flow`'s `iter_mut().find(|f| f.id == flow_id)`
followed by the host match: rewrites the first flow whose id matches (a
link-hosted match gets the new direction and an empty blob queue; a
node-hosted match is left alone) and returns the list of changed flows
(`vec![flow.clone()]` or `vec![]`). -/
def changeFlowList : List Flow → FlowId → Dir → List Flow × List Flow
  | [], _, _ => ([], [])
  | f :: rest, fid, nd =>
    if f.id = fid then
      match f.host with
      | .Node _ => (f :: rest, [])
      | .Link lid _ _ =>
        let f' := { f with host := .Link lid nd [] }
        (f' :: rest, [f'])
    else
      let r := changeFlowList rest fid nd
      (f :: r.1, r.2)

/-- `Game::change_flow`: mutate the flow list in place, return the update
vector. -/
def Game.change_flow (g : Game) (fid : FlowId) (nd : Dir) : Game × List Flow :=
  let r := changeFlowList g.flows fid nd
  ({ g with flows := r.1 }, r.2)

/-- `enum ReqDir { To1, To2 }`. -/
inductive ReqDir where
  | To1 : ReqDir
  | To2 : ReqDir
deriving DecidableEq, Repr

/-- `enum Request { NewPlayer, GetState, Restart, Calc, ChangeFlow{..} }`. -/
inductive Request where
  | NewPlayer : Request
  | GetState : Request
  | Restart : Request
  | Calc : Request
  | ChangeFlow : FlowId → ReqDir → Request
deriving DecidableEq, Repr

/-- `struct PersonalRequest {player, request}`. -/
structure PersonalRequest where
  player : PlayerId
  request : Request
deriving DecidableEq, Repr

/-- `enum Address { None, Player(PlayerId), All }`. -/
inductive Address where
  | None : Address
  | Player : PlayerId → Address
  | All : Address
deriving DecidableEq, Repr

/-- `enum Response { GameState(Game), FlowState{flows}, FlowUpdate{flows},
Nop }`. -/
inductive Response where
  | GameState : Game → Response
  | FlowState : List Flow → Response
  | FlowUpdate : List Flow → Response
  | Nop : Response
deriving DecidableEq, Repr

/-- `struct AddressResponse {whom, response}`. -/
structure AddressResponse where
  whom : Address
  response : Response
deriving DecidableEq, Repr

/-- Streams of `thread_rng` draw values consumed by one world generation:
`(x, y, size)` triples for `gen_nodes`, the `gen_range(2, 5)` draw per node
for `gen_links`, and the `quality` draw per pushed link. -/
structure Gen where
  coords : List (Int × Int × ℚ)
  linkCounts : List Nat
  quals : List ℚ
deriving DecidableEq, Repr

/-- Stable insertion step: `x` goes after every already-placed element `y`
with `le y x`.  Folding it left over the input realises the same stable
sort as Rust's `sort_by` (a stable sort is determined extensionally by the
total preorder, so the choice of stable algorithm is immaterial). -/
def insertSorted (le : Node → Node → Bool) (x : Node) : List Node → List Node
  | [] => [x]
  | y :: ys => if le y x then y :: insertSorted le x ys else x :: y :: ys

/-- Stable sort (models `source.sort_by(|a, b| pos.dist(a.pos)
.partial_cmp(&pos.dist(b.pos)))`). -/
def stableSort (le : Node → Node → Bool) (l : List Node) : List Node :=
  l.foldl (fun acc x => insertSorted le x acc) []

/-- Collection loop of `get_nearest_nodes`: push each candidate inside the
distance bound (`dist == 0.` means no bound), stop once `n` results are
collected.  The bound is squared (`dsqBound`). -/
def gnnGo (pos : Point) (dsqBound : Int) (n : Nat) : List Node → List Node → List Node
  | [], res => res
  | nd :: rest, res =>
    let res' := if dsqBound = 0 ∨ distSq pos nd.pos < dsqBound then res ++ [nd] else res
    if n ≤ res'.length then res' else gnnGo pos dsqBound n rest res'

/-- `get_nearest_nodes(pos, nodes, n, dist)` with the distance bound passed
squared (`100f32 ↦ 10000`, `0. ↦ 0`). -/
def get_nearest_nodes (pos : Point) (nodes : List Node) (n : Nat) (dsqBound : Int) :
    List Node :=
  let n := if n = 0 then nodes.length else n
  let source := stableSort (fun a b => distSq pos a.pos ≤ distSq pos b.pos) nodes
  gnnGo pos dsqBound n source []

/-- Loop body of `gen_nodes`: while fewer than `n` nodes exist, draw a
candidate, reject it if some existing node is within (squared) distance
10000, otherwise push it with `id = res.len()`.  The finite draw stream cut
(`[] => res`) models running the loop with finitely much randomness. -/
def gen_nodes_go (n : Nat) : List (Int × Int × ℚ) → List Node → List Node
  | [], res => res
  | d :: rest, res =>
    if res.length < n then
      let pos : Point := ⟨d.1, d.2.1⟩
      if 0 < (get_nearest_nodes pos res 1 10000).length then
        gen_nodes_go n rest res
      else
        gen_nodes_go n rest (res ++ [⟨res.length, pos, d.2.2⟩])
    else res

/-- `gen_nodes(n)`. -/
def gen_nodes (n : Nat) (draws : List (Int × Int × ℚ)) : List Node :=
  gen_nodes_go n draws []

/-- Inner loop of `gen_links`: for each nearest neighbour, push a link
(with `id = res.len()` and the next quality draw) unless the pair is
already linked. -/
def addLinks (nid : NodeId) : List Node → List Link → List ℚ → List Link × List ℚ
  | [], res, quals => (res, quals)
  | m :: ms, res, quals =>
    match res.find? (fun l => l.between_ids nid m.id) with
    | some _ => addLinks nid ms res quals
    | none => addLinks nid ms (res ++ [⟨res.length, quals.headD 0, nid, m.id⟩]) quals.tail

/-- Outer loop of `gen_links`: per node, draw `links_count =
gen_range(2, 5) + 1`, take that many nearest nodes minus the node itself
(`[1..]`), and link to them. -/
def gen_links_go (allNodes : List Node) :
    List Node → List Nat → List ℚ → List Link → List Link
  | [], _, _, res => res
  | nd :: rest, counts, quals, res =>
    let c := counts.headD 2 + 1
    let nearest := (get_nearest_nodes nd.pos allNodes c 0).drop 1
    let r := addLinks nd.id nearest res quals
    gen_links_go allNodes rest counts.tail r.2 r.1

/-- `gen_links(nodes)`. -/
def gen_links (nodes : List Node) (counts : List Nat) (quals : List ℚ) : List Link :=
  gen_links_go nodes nodes counts quals []

/-- First loop of `gen_flows`: one link-hosted flow per link, pushed with
`id = res.len()`, amount 0, `Dir::None`, empty blob queue. -/
def gen_flows_links : List Link → List Flow → List Flow
  | [], res => res
  | l :: ls, res => gen_flows_links ls (res ++ [⟨res.length, 0, .Link l.id .None []⟩])

/-- Second loop of `gen_flows`: one node-hosted flow per node, pushed with
`id = res.len()`, amount 0. -/
def gen_flows_nodes : List Node → List Flow → List Flow
  | [], res => res
  | n :: ns, res => gen_flows_nodes ns (res ++ [⟨res.length, 0, .Node n.id⟩])

/-- `gen_flows(nodes, links)`: all link flows first, then all node flows
(the source comments that the tick relies on this order). -/
def gen_flows (nodes : List Node) (links : List Link) : List Flow :=
  gen_flows_nodes nodes (gen_flows_links links [])

/-- `Game::new()`: `gen_nodes(100)`, then links, then flows, with the RNG
draws supplied by a `Gen` stream. -/
def Game.new (gen : Gen) : Game :=
  let nodes := gen_nodes 100 gen.coords
  let links := gen_links nodes gen.linkCounts gen.quals
  ⟨nodes, links, gen_flows nodes links⟩

/-- `Game::renew`: overwrites all three fields exactly as `Game::new`
computes them (the prior state is discarded). -/
def Game.renew (_g : Game) (gen : Gen) : Game :=
  Game.new gen

/-- The direction tagging of `main_loop`'s ChangeFlow arm: `ReqDir::To1 =>
Dir::To1(id)`, `ReqDir::To2 => Dir::To2(id)`. -/
def tagDir (rd : ReqDir) (p : PlayerId) : Dir :=
  match rd with
  | .To1 => .To1 p
  | .To2 => .To2 p

/-- One iteration of `Game::main_loop` on a received `PersonalRequest`:
returns the new world, the new last-tick time `t`, and the emitted
`AddressResponse`.  `now` stands for the `precise_time_s()` readings of the
iteration and `gen` for the RNG draws a `Restart` would consume. -/
def step (g : Game) (t now : ℚ) (tt : Node → Node → ℚ) (gen : Gen)
    (pr : PersonalRequest) : Game × ℚ × AddressResponse :=
  match pr.request with
  | .NewPlayer =>
    let c := Game.calcTick g t now tt
    (c.1, c.2, ⟨.Player pr.player, .GameState c.1⟩)
  | .GetState =>
    let c := Game.calcTick g t now tt
    (c.1, c.2, ⟨.Player pr.player, .GameState c.1⟩)
  | .Restart =>
    let g' := Game.renew g gen
    (g', now, ⟨.All, .GameState g'⟩)
  | .Calc =>
    if now - t < 1/5 then
      (g, t, ⟨.None, .Nop⟩)
    else
      let c := Game.calcTick g t now tt
      (c.1, c.2, ⟨.All, .FlowState c.1.flows⟩)
  | .ChangeFlow fid rd =>
    let d : Dir := tagDir rd pr.player
    let r := Game.change_flow g fid d
    (r.1, t, ⟨if 0 < r.2.length then .All else .None, .FlowUpdate r.2⟩)

/-- One event of an engine run: the request, the wall-clock reading at which
it is processed, and the RNG draws available to it. -/
structure Ev where
  pr : PersonalRequest
  now : ℚ
  gen : Gen

/-- Iterated `main_loop`: process a list of events in order. -/
def run (tt : Node → Node → ℚ) : Game → ℚ → List Ev → Game × ℚ
  | g, t, [] => (g, t)
  | g, t, e :: rest =>
    let s := step g t e.now tt e.gen e.pr
    run tt s.1 s.2.1 rest

/-- `enum ServerEvent { NewPlayer{id, ws}, PlayerExit{id} }` of `main.rs`
(the `ws` sender handle is transport state, outside the model). -/
inductive ServerEvent where
  | NewPlayer : PlayerId → ServerEvent
  | PlayerExit : PlayerId → ServerEvent
deriving DecidableEq, Repr

/-- The `recv(from_server)` arm of `dispatch` in `main.rs`, sequentialised
with the engine: on `NewPlayer` the dispatcher registers the connection and
forwards `Request::NewPlayer` to the engine (whose response is collected);
on `PlayerExit` it only removes the connection from its registry — nothing
is sent to the engine.  Returns the registry, the engine state, the engine
clock, and the outbound responses produced. -/
def handleServerEvent (players : List PlayerId) (g : Game) (t now : ℚ)
    (tt : Node → Node → ℚ) (gen : Gen) :
    ServerEvent → List PlayerId × Game × ℚ × List AddressResponse
  | .NewPlayer i =>
    let s := step g t now tt gen ⟨i, .NewPlayer⟩
    (players ++ [i], s.1, s.2.1, [s.2.2])
  | .PlayerExit i =>
    (players.filter (fun p => p != i), g, t, [])

/-! ### Host kinds and the links-before-nodes ordering -/

/-- Whether a flow host is node-hosted. -/
def isNodeHost : FlowHost → Bool
  | .Node _ => true
  | .Link _ _ _ => false

/-- The list of host kinds of a flow list. -/
def kinds (fl : List Flow) : List Bool :=
  fl.map (fun f => isNodeHost f.host)

/-- Every link-hosted flow precedes every node-hosted flow. -/
def linksFirst : List Flow → Bool
  | [] => true
  | f :: rest =>
    if isNodeHost f.host then rest.all (fun x => isNodeHost x.host) else linksFirst rest

/-! ### The nonnegativity invariant -/

/-- Every node size is nonnegative (true of generated nodes: `gen_range(0.5,
1.5)`). -/
def SizesNonneg (ns : List Node) : Prop := ∀ n ∈ ns, 0 ≤ n.size

/-- The blobs of a link host all carry nonnegative amounts. -/
def BlobsOk : FlowHost → Prop
  | .Link _ _ bs => ∀ b ∈ bs, 0 ≤ b.amount
  | .Node _ => True

/-- A flow is well formed: nonnegative amount and, when link-hosted,
nonnegative blob amounts. -/
def FlowOk (f : Flow) : Prop :=
  0 ≤ f.amount ∧ BlobsOk f.host

/-- All flows of a list are well formed. -/
def FlowsOk (fl : List Flow) : Prop := ∀ f ∈ fl, FlowOk f

/-- A well-formed world: nonnegative node sizes and well-formed flows. -/
def Inv (g : Game) : Prop := SizesNonneg g.nodes ∧ FlowsOk g.flows

/-- The inflow accumulator holds only nonnegative credits. -/
def InflOk (infl : InflowMap) : Prop := ∀ i, 0 ≤ infl i

/-- Every recorded outflow draw is nonnegative. -/
def OutOk (out : OutflowMap) : Prop := ∀ i l, out i = some l → ∀ x ∈ l, 0 ≤ x

/-- The RNG draw stream yields only nonnegative node sizes (as
`gen_range(0.5, 1.5)` does). -/
def GenOk (gen : Gen) : Prop := ∀ d ∈ gen.coords, 0 ≤ d.2.2

/-- A trace is valid when the wall-clock readings are nondecreasing (the
first at or after the current last-tick time) and every Restart draw stream
yields nonnegative sizes. -/
def ValidTrace : ℚ → List Ev → Prop
  | _, [] => True
  | t, e :: rest => t ≤ e.now ∧ GenOk e.gen ∧ ValidTrace e.now rest


/-- A tiny concrete world used to instantiate theorems: two nodes 100 apart,
one link between them, one directed link-hosted flow and one reservoir flow
per node. -/
def exNode0 : Node := ⟨0, ⟨0, 0⟩, 1⟩

/-- Second node of the tiny world. -/
def exNode1 : Node := ⟨1, ⟨100, 0⟩, 1⟩

/-- The link of the tiny world, joining the two nodes. -/
def exLink0 : Link := ⟨0, 1/2, 0, 1⟩

/-- The tiny world. -/
def exGame : Game :=
  ⟨[exNode0, exNode1], [exLink0],
   [⟨0, 0, .Link 0 (.To1 1) []⟩, ⟨1, 5, .Node 0⟩, ⟨2, 0, .Node 1⟩]⟩

/-- A concrete travel-time function for instantiations. -/
def exTT : Node → Node → ℚ := fun _ _ => 0

/-- A minimal draw stream (one in-range node draw). -/
def exGen : Gen := ⟨[(0, 0, 1)], [], []⟩

theorem allNode_eq_kinds (l : List Flow) :
    l.all (fun x => isNodeHost x.host) = (kinds l).all (fun b => b) := by
  induction l with
  | nil => rfl
  | cons f r ih => simp only [kinds, List.map_cons, List.all_cons] at ih ⊢; rw [ih]

theorem linksFirst_congr : ∀ {fl₁ fl₂ : List Flow}, kinds fl₁ = kinds fl₂ →
    linksFirst fl₁ = linksFirst fl₂ := by
  intro fl₁
  induction fl₁ with
  | nil => intro fl₂ h; cases fl₂ <;> simp_all [kinds]
  | cons f rest ih =>
    intro fl₂ h
    cases fl₂ with
    | nil => simp [kinds] at h
    | cons g rest₂ =>
      simp only [kinds, List.map_cons, List.cons.injEq] at h
      obtain ⟨hk, hr⟩ := h
      simp only [linksFirst, hk]
      by_cases hg : isNodeHost g.host
      · simp only [hg, if_true]
        rw [allNode_eq_kinds, allNode_eq_kinds]
        unfold kinds
        rw [hr]
      · simp only [hg, if_false]
        exact ih hr

theorem kinds_pass1 (ns : List Node) (ls : List Link) (now dt : ℚ) :
    ∀ (fl : List Flow) (infl : InflowMap), kinds (pass1 ns ls now dt infl fl) = kinds fl := by
  intro fl
  induction fl with
  | nil => intro infl; simp [pass1, kinds]
  | cons f rest ih =>
    intro infl
    cases hf : f.host with
    | Link lid dir blobs =>
      cases dir <;> simp [pass1, hf, Dir.isSet, kinds, isNodeHost] <;>
        simpa [kinds] using ih _
    | Node nid =>
      simp [pass1, hf, kinds, isNodeHost]
      simpa [kinds] using ih _

theorem kinds_pass2 (ns : List Node) (ls : List Link) (dt : ℚ) :
    ∀ (fl : List Flow) (out : OutflowMap),
      kinds (pass2 ns ls dt out fl).1 = kinds fl := by
  intro fl
  induction fl with
  | nil => intro out; simp [pass2, kinds]
  | cons f rest ih =>
    intro out
    cases hf : f.host with
    | Link lid dir blobs =>
      cases dir <;> simp [pass2, hf, Dir.isSet, kinds, isNodeHost] <;>
        simpa [kinds] using ih _
    | Node nid =>
      cases ho : out nid <;> simp [pass2, hf, ho, kinds, isNodeHost] <;>
        simpa [kinds] using ih _

theorem kinds_pass3 (ns : List Node) (ls : List Link) (now : ℚ) (tt : Node → Node → ℚ) :
    ∀ (fl : List Flow) (out : OutflowMap),
      kinds (pass3 ns ls now tt out fl) = kinds fl := by
  intro fl
  induction fl with
  | nil => intro out; simp [pass3, kinds]
  | cons f rest ih =>
    intro out
    cases hf : f.host with
    | Link lid dir blobs =>
      cases dir <;> simp [pass3, hf, Dir.isSet, kinds, isNodeHost] <;>
        simpa [kinds] using ih _
    | Node nid =>
      simp [pass3, hf, kinds, isNodeHost]

theorem kinds_changeFlowList :
    ∀ (fl : List Flow) (fid : FlowId) (nd : Dir),
      kinds (changeFlowList fl fid nd).1 = kinds fl := by
  intro fl fid nd
  induction fl with
  | nil => simp [changeFlowList, kinds]
  | cons f rest ih =>
    by_cases hid : f.id = fid
    · cases hf : f.host <;> simp [changeFlowList, hid, hf, kinds, isNodeHost]
    · simp [changeFlowList, hid, kinds, isNodeHost]
      simpa [kinds] using ih

theorem linksFirst_calcTick (g : Game) (old now : ℚ) (tt : Node → Node → ℚ)
    (h : linksFirst g.flows = true) :
    linksFirst (g.calcTick old now tt).1.flows = true := by
  have hk : kinds (g.calcTick old now tt).1.flows = kinds g.flows := by
    simp only [Game.calcTick]
    rw [kinds_pass3, kinds_pass2, kinds_pass1]
  rw [linksFirst_congr hk, h]

theorem nodeOfId_size_nonneg (ns : List Node) (i : NodeId) (h : SizesNonneg ns) :
    0 ≤ (nodeOfId ns i).size := by
  unfold nodeOfId
  cases hf : ns.find? (fun n => n.id == i) with
  | none => simp
  | some n => simpa using h n (List.mem_of_find?_eq_some hf)

theorem applyOutflow_ok (a : ℚ) (l : List ℚ) (ha : 0 ≤ a) (hl : ∀ x ∈ l, 0 ≤ x) :
    0 ≤ (applyOutflow a l).1 ∧ ∀ x ∈ (applyOutflow a l).2, 0 ≤ x := by
  unfold applyOutflow
  by_cases hs : l.sum < a
  · simp only [hs, if_true]
    exact ⟨by linarith, hl⟩
  · simp only [hs, if_false]
    refine ⟨le_refl 0, ?_⟩
    intro x hx
    simp only [List.mem_map] at hx
    obtain ⟨y, hy, rfl⟩ := hx
    have hsum : 0 ≤ l.sum := List.sum_nonneg hl
    exact mul_nonneg (hl y hy) (div_nonneg ha hsum)

theorem FlowsOk.cons {f : Flow} {rest : List Flow} (hf : FlowOk f) (hr : FlowsOk rest) :
    FlowsOk (f :: rest) := by
  intro x hx
  rcases List.mem_cons.mp hx with h | h
  · exact h ▸ hf
  · exact hr x h

theorem inflUpdateOk {infl : InflowMap} (hinfl : InflOk infl) (j : NodeId) {c : ℚ}
    (hc : 0 ≤ c) : InflOk (fun i => if i = j then infl i + c else infl i) := by
  intro i
  show 0 ≤ if i = j then infl i + c else infl i
  by_cases hi : i = j
  · rw [if_pos hi]
    have := hinfl i
    linarith
  · rw [if_neg hi]
    exact hinfl i

theorem pass1_ok (ns : List Node) (ls : List Link) (now dt : ℚ)
    (hns : SizesNonneg ns) (hdt : 0 ≤ dt) :
    ∀ (fl : List Flow) (infl : InflowMap), InflOk infl → FlowsOk fl →
      FlowsOk (pass1 ns ls now dt infl fl) := by
  intro fl
  induction fl with
  | nil => intro infl _ _; simp [pass1, FlowsOk]
  | cons f rest ih =>
    intro infl hinfl hfl
    have hf := hfl f (by simp)
    have hrest : FlowsOk rest := fun x hx => hfl x (by simp [hx])
    cases hh : f.host with
    | Link lid dir blobs =>
      have hblobs : ∀ b ∈ blobs, 0 ≤ b.amount := by
        have := hf.2
        rw [hh] at this
        exact this
      have harr : 0 ≤ ((blobs.filter (fun b => b.arrive_at ≤ now)).map Blob.amount).sum := by
        refine List.sum_nonneg ?_
        intro x hx
        simp only [List.mem_map] at hx
        obtain ⟨b, hb, rfl⟩ := hx
        exact hblobs b (List.mem_of_mem_filter hb)
      have hhead : FlowOk
          ⟨f.id, f.amount, FlowHost.Link lid dir (blobs.filter (fun b => now < b.arrive_at))⟩ := by
        refine ⟨hf.1, ?_⟩
        intro b hb
        exact hblobs b (List.mem_of_mem_filter hb)
      cases dir with
      | None =>
        simp only [pass1, hh, Dir.isSet, Bool.false_eq_true, if_false]
        exact FlowsOk.cons hf (ih infl hinfl hrest)
      | To1 p =>
        simp only [pass1, hh, Dir.isSet, if_true]
        exact FlowsOk.cons hhead (ih _ (inflUpdateOk hinfl _ harr) hrest)
      | To2 p =>
        simp only [pass1, hh, Dir.isSet, if_true]
        exact FlowsOk.cons hhead (ih _ (inflUpdateOk hinfl _ harr) hrest)
    | Node nid =>
      simp only [pass1, hh]
      refine FlowsOk.cons ⟨?_, ?_⟩ (ih infl hinfl hrest)
      · have h1 : 0 ≤ (nodeOfId ns nid).size * dt :=
          mul_nonneg (nodeOfId_size_nonneg ns nid hns) hdt
        have h2 := hinfl nid
        have h3 := hf.1
        simp only
        linarith
      · exact trivial

theorem outUpdateOk {out : OutflowMap} (hout : OutOk out) (j : NodeId) {newl : List ℚ}
    (hnew : ∀ x ∈ newl, 0 ≤ x) : OutOk (fun i => if i = j then some newl else out i) := by
  intro i l hl
  have hl' : (if i = j then some newl else out i) = some l := hl
  by_cases hi : i = j
  · rw [if_pos hi] at hl'
    cases hl'
    exact hnew
  · rw [if_neg hi] at hl'
    exact hout i l hl'

theorem outGetdOk {out : OutflowMap} (hout : OutOk out) (i : NodeId) :
    ∀ x ∈ (out i).getD [], 0 ≤ x := by
  cases ho : out i with
  | none => simp
  | some l => simpa using hout i l ho

theorem pass2_ok (ns : List Node) (ls : List Link) (dt : ℚ) (hdt : 0 ≤ dt) :
    ∀ (fl : List Flow) (out : OutflowMap), OutOk out → FlowsOk fl →
      FlowsOk (pass2 ns ls dt out fl).1 ∧ OutOk (pass2 ns ls dt out fl).2 := by
  intro fl
  induction fl with
  | nil => intro out hout _; simpa [pass2, FlowsOk] using hout
  | cons f rest ih =>
    intro out hout hfl
    have hf := hfl f (by simp)
    have hrest : FlowsOk rest := fun x hx => hfl x (by simp [hx])
    cases hh : f.host with
    | Link lid dir blobs =>
      have hout' : ∀ fr : Node, OutOk (fun i =>
          if i = fr.id then some (((out fr.id).getD []) ++ [dt * 3]) else out i) := by
        intro fr
        refine outUpdateOk hout fr.id ?_
        intro x hx
        rcases List.mem_append.mp hx with h | h
        · exact outGetdOk hout fr.id x h
        · simp only [List.mem_singleton] at h
          subst h
          positivity
      cases dir with
      | None =>
        simp only [pass2, hh, Dir.isSet, Bool.false_eq_true, if_false]
        have h := ih out hout hrest
        exact ⟨FlowsOk.cons hf h.1, h.2⟩
      | To1 p =>
        simp only [pass2, hh, Dir.isSet, if_true]
        have h := ih _ (hout' (nodeOfId ns ((linkOfId ls lid).fromNode (.To1 p)))) hrest
        exact ⟨FlowsOk.cons hf h.1, h.2⟩
      | To2 p =>
        simp only [pass2, hh, Dir.isSet, if_true]
        have h := ih _ (hout' (nodeOfId ns ((linkOfId ls lid).fromNode (.To2 p)))) hrest
        exact ⟨FlowsOk.cons hf h.1, h.2⟩
    | Node nid =>
      cases ho : out nid with
      | none =>
        simp only [pass2, hh, ho]
        have h := ih out hout hrest
        exact ⟨FlowsOk.cons hf h.1, h.2⟩
      | some l =>
        simp only [pass2, hh, ho]
        have hl : ∀ x ∈ l, 0 ≤ x := hout nid l ho
        have hap := applyOutflow_ok f.amount l hf.1 hl
        have h := ih _ (outUpdateOk hout nid hap.2) hrest
        refine ⟨FlowsOk.cons ⟨hap.1, ?_⟩ h.1, h.2⟩
        show BlobsOk (FlowHost.Node nid)
        trivial

theorem headD_tail_ok {l : List ℚ} (hl : ∀ x ∈ l, 0 ≤ x) :
    0 ≤ l.headD 0 ∧ ∀ x ∈ l.tail, 0 ≤ x := by
  cases l with
  | nil => simp
  | cons a as =>
    refine ⟨hl a (by simp), ?_⟩
    intro x hx
    exact hl x (List.mem_cons_of_mem a (by simpa using hx))

theorem pass3_ok (ns : List Node) (ls : List Link) (now : ℚ) (tt : Node → Node → ℚ) :
    ∀ (fl : List Flow) (out : OutflowMap), OutOk out → FlowsOk fl →
      FlowsOk (pass3 ns ls now tt out fl) := by
  intro fl
  induction fl with
  | nil => intro out _ _; simp [pass3, FlowsOk]
  | cons f rest ih =>
    intro out hout hfl
    have hf := hfl f (by simp)
    have hrest : FlowsOk rest := fun x hx => hfl x (by simp [hx])
    cases hh : f.host with
    | Node nid =>
      simp only [pass3, hh]
      exact FlowsOk.cons hf hrest
    | Link lid dir blobs =>
      have hblobs : ∀ b ∈ blobs, 0 ≤ b.amount := by
        have := hf.2
        rw [hh] at this
        exact this
      have hkey : ∀ fr : Node, 0 ≤ ((out fr.id).getD []).headD 0 ∧
          ∀ x ∈ ((out fr.id).getD []).tail, 0 ≤ x :=
        fun fr => headD_tail_ok (outGetdOk hout fr.id)
      have hhead : ∀ (fr dst : Node) (d : Dir), FlowOk ⟨f.id,
          ((blobs ++ [(⟨((out fr.id).getD []).headD 0, now + tt fr dst⟩ : Blob)]).map
            Blob.amount).sum,
          FlowHost.Link lid d
            (blobs ++ [(⟨((out fr.id).getD []).headD 0, now + tt fr dst⟩ : Blob)])⟩ := by
        intro fr dst d
        have hball : ∀ b ∈ blobs ++ [(⟨((out fr.id).getD []).headD 0, now + tt fr dst⟩ : Blob)],
            0 ≤ b.amount := by
          intro b hb
          rcases List.mem_append.mp hb with h | h
          · exact hblobs b h
          · simp only [List.mem_singleton] at h
            subst h
            exact (hkey fr).1
        refine ⟨?_, ?_⟩
        · refine List.sum_nonneg ?_
          intro x hx
          simp only [List.mem_map] at hx
          obtain ⟨b, hb, rfl⟩ := hx
          exact hball b hb
        · exact hball
      cases dir with
      | None =>
        simp only [pass3, hh, Dir.isSet, Bool.false_eq_true, if_false]
        exact FlowsOk.cons hf (ih out hout hrest)
      | To1 p =>
        simp only [pass3, hh, Dir.isSet, if_true]
        refine FlowsOk.cons (hhead _ _ _) (ih _ ?_ hrest)
        exact outUpdateOk hout _ (hkey (nodeOfId ns ((linkOfId ls lid).fromNode (.To1 p)))).2
      | To2 p =>
        simp only [pass3, hh, Dir.isSet, if_true]
        refine FlowsOk.cons (hhead _ _ _) (ih _ ?_ hrest)
        exact outUpdateOk hout _ (hkey (nodeOfId ns ((linkOfId ls lid).fromNode (.To2 p)))).2

theorem calcTick_inv (g : Game) (old now : ℚ) (tt : Node → Node → ℚ)
    (hInv : Inv g) (hle : old ≤ now) : Inv (g.calcTick old now tt).1 := by
  have hdt : 0 ≤ now - old := by linarith
  have h1 : FlowsOk (pass1 g.nodes g.links now (now - old) (fun _ => 0) g.flows) :=
    pass1_ok g.nodes g.links now (now - old) hInv.1 hdt g.flows _ (fun _ => le_refl 0) hInv.2
  have h2 := pass2_ok g.nodes g.links (now - old) hdt
    (pass1 g.nodes g.links now (now - old) (fun _ => 0) g.flows) (fun _ => none)
    (fun i l hl => by cases hl) h1
  have h3 := pass3_ok g.nodes g.links now tt _ _ h2.2 h2.1
  exact ⟨hInv.1, h3⟩

theorem changeFlowList_ok (fid : FlowId) (nd : Dir) :
    ∀ fl : List Flow, FlowsOk fl → FlowsOk (changeFlowList fl fid nd).1 := by
  intro fl
  induction fl with
  | nil => intro _; simp [changeFlowList, FlowsOk]
  | cons f rest ih =>
    intro hfl
    have hf := hfl f (by simp)
    have hrest : FlowsOk rest := fun x hx => hfl x (by simp [hx])
    by_cases hid : f.id = fid
    · cases hh : f.host with
      | Node nid =>
        simp only [changeFlowList, hid, if_pos rfl, hh]
        exact hfl
      | Link lid dir blobs =>
        simp only [changeFlowList, hid, if_pos rfl, hh]
        refine FlowsOk.cons ⟨hf.1, ?_⟩ hrest
        intro b hb
        cases hb
    · simp only [changeFlowList, if_neg hid]
      exact FlowsOk.cons hf (ih hrest)

theorem change_flow_inv (g : Game) (fid : FlowId) (nd : Dir) (hInv : Inv g) :
    Inv (g.change_flow fid nd).1 :=
  ⟨hInv.1, changeFlowList_ok fid nd g.flows hInv.2⟩

/-! ### Properties of generation -/

theorem gen_nodes_go_sizes (n : Nat) :
    ∀ (draws : List (Int × Int × ℚ)) (res : List Node), (∀ d ∈ draws, 0 ≤ d.2.2) →
      SizesNonneg res → SizesNonneg (gen_nodes_go n draws res) := by
  intro draws
  induction draws with
  | nil => intro res _ hres; simpa [gen_nodes_go] using hres
  | cons d rest ih =>
    intro res hd hres
    have hd1 : 0 ≤ d.2.2 := hd d (by simp)
    have hdrest : ∀ x ∈ rest, 0 ≤ x.2.2 := fun x hx => hd x (by simp [hx])
    simp only [gen_nodes_go]
    by_cases hlen : res.length < n
    · rw [if_pos hlen]
      by_cases hnear : 0 < (get_nearest_nodes ⟨d.1, d.2.1⟩ res 1 10000).length
      · rw [if_pos hnear]
        exact ih res hdrest hres
      · rw [if_neg hnear]
        refine ih _ hdrest ?_
        intro x hx
        rcases List.mem_append.mp hx with h | h
        · exact hres x h
        · simp only [List.mem_singleton] at h
          subst h
          exact hd1
    · rw [if_neg hlen]
      exact hres

theorem gen_nodes_sizes (n : Nat) (draws : List (Int × Int × ℚ))
    (hd : ∀ d ∈ draws, 0 ≤ d.2.2) : SizesNonneg (gen_nodes n draws) :=
  gen_nodes_go_sizes n draws [] hd (fun x hx => by cases hx)

theorem gen_flows_links_shape :
    ∀ (ls : List Link) (res : List Flow), ∃ L, gen_flows_links ls res = res ++ L ∧
      ∀ f ∈ L, f.amount = 0 ∧ ∃ lid, f.host = FlowHost.Link lid .None [] := by
  intro ls
  induction ls with
  | nil => intro res; exact ⟨[], by simp [gen_flows_links], by simp⟩
  | cons l rest ih =>
    intro res
    obtain ⟨L, hL, hprop⟩ := ih (res ++ [⟨res.length, 0, .Link l.id .None []⟩])
    refine ⟨⟨res.length, 0, .Link l.id .None []⟩ :: L, ?_, ?_⟩
    · simp only [gen_flows_links, hL, List.append_assoc, List.singleton_append]
    · intro f hf
      rcases List.mem_cons.mp hf with h | h
      · subst h
        exact ⟨rfl, l.id, rfl⟩
      · exact hprop f h

theorem gen_flows_nodes_shape :
    ∀ (ns : List Node) (res : List Flow), ∃ N, gen_flows_nodes ns res = res ++ N ∧
      (∀ f ∈ N, f.amount = 0 ∧ ∃ nid, f.host = FlowHost.Node nid) ∧
      N.length = ns.length := by
  intro ns
  induction ns with
  | nil => intro res; exact ⟨[], by simp [gen_flows_nodes], by simp, by simp⟩
  | cons n rest ih =>
    intro res
    obtain ⟨N, hN, hprop, hlen⟩ := ih (res ++ [⟨res.length, 0, .Node n.id⟩])
    refine ⟨⟨res.length, 0, .Node n.id⟩ :: N, ?_, ?_, ?_⟩
    · simp only [gen_flows_nodes, hN, List.append_assoc, List.singleton_append]
    · intro f hf
      rcases List.mem_cons.mp hf with h | h
      · subst h
        exact ⟨rfl, n.id, rfl⟩
      · exact hprop f h
    · simp [hlen]

theorem gen_flows_ok (nodes : List Node) (links : List Link) :
    FlowsOk (gen_flows nodes links) := by
  obtain ⟨L, hL, hLprop⟩ := gen_flows_links_shape links []
  obtain ⟨N, hN, hNprop, _⟩ := gen_flows_nodes_shape nodes (gen_flows_links links [])
  intro f hf
  rw [gen_flows, hN, hL] at hf
  simp only [List.nil_append, List.mem_append] at hf
  rcases hf with h | h
  · obtain ⟨ha, lid, hh⟩ := hLprop f h
    refine ⟨le_of_eq ha.symm, ?_⟩
    rw [hh]
    intro b hb
    cases hb
  · obtain ⟨ha, nid, hh⟩ := hNprop f h
    refine ⟨le_of_eq ha.symm, ?_⟩
    rw [hh]
    trivial

theorem linksFirst_append {A B : List Flow} (hA : ∀ f ∈ A, isNodeHost f.host = false)
    (hB : ∀ f ∈ B, isNodeHost f.host = true) : linksFirst (A ++ B) = true := by
  induction A with
  | nil =>
    simp only [List.nil_append]
    cases B with
    | nil => rfl
    | cons b bs =>
      have hb := hB b (by simp)
      simp only [linksFirst, hb, if_true]
      rw [List.all_eq_true]
      intro x hx
      exact hB x (by simp [hx])
  | cons a as ih =>
    have ha := hA a (by simp)
    simp only [List.cons_append, linksFirst, ha, Bool.false_eq_true, if_false]
    exact ih (fun f hf => hA f (by simp [hf]))

theorem gen_flows_linksFirst (nodes : List Node) (links : List Link) :
    linksFirst (gen_flows nodes links) = true := by
  obtain ⟨L, hL, hLprop⟩ := gen_flows_links_shape links []
  obtain ⟨N, hN, hNprop, _⟩ := gen_flows_nodes_shape nodes (gen_flows_links links [])
  rw [gen_flows, hN, hL, List.nil_append]
  refine linksFirst_append ?_ ?_
  · intro f hf
    obtain ⟨_, lid, hh⟩ := hLprop f hf
    simp [hh, isNodeHost]
  · intro f hf
    obtain ⟨_, nid, hh⟩ := hNprop f hf
    simp [hh, isNodeHost]

theorem renew_inv (g : Game) (gen : Gen) (hgen : GenOk gen) : Inv (Game.renew g gen) := by
  refine ⟨?_, ?_⟩
  · exact gen_nodes_sizes 100 gen.coords hgen
  · exact gen_flows_ok _ _

theorem renew_linksFirst (g : Game) (gen : Gen) :
    linksFirst (Game.renew g gen).flows = true :=
  gen_flows_linksFirst _ _

/-! ### Step- and run-level preservation -/

theorem step_inv (g : Game) (t now : ℚ) (tt : Node → Node → ℚ) (gen : Gen)
    (pr : PersonalRequest) (hInv : Inv g) (ht : t ≤ now) (hgen : GenOk gen) :
    Inv (step g t now tt gen pr).1 ∧ (step g t now tt gen pr).2.1 ≤ now := by
  cases hreq : pr.request with
  | NewPlayer =>
    simp only [step, hreq]
    exact ⟨calcTick_inv g t now tt hInv ht, le_refl now⟩
  | GetState =>
    simp only [step, hreq]
    exact ⟨calcTick_inv g t now tt hInv ht, le_refl now⟩
  | Restart =>
    simp only [step, hreq]
    exact ⟨renew_inv g gen hgen, le_refl now⟩
  | Calc =>
    simp only [step, hreq]
    by_cases hthr : now - t < 1/5
    · rw [if_pos hthr]
      exact ⟨hInv, ht⟩
    · rw [if_neg hthr]
      exact ⟨calcTick_inv g t now tt hInv ht, le_refl now⟩
  | ChangeFlow fid rd =>
    simp only [step, hreq]
    exact ⟨change_flow_inv g fid _ hInv, ht⟩

theorem step_linksFirst (g : Game) (t now : ℚ) (tt : Node → Node → ℚ) (gen : Gen)
    (pr : PersonalRequest) (h : linksFirst g.flows = true) :
    linksFirst (step g t now tt gen pr).1.flows = true := by
  cases hreq : pr.request with
  | NewPlayer =>
    simp only [step, hreq]
    exact linksFirst_calcTick g t now tt h
  | GetState =>
    simp only [step, hreq]
    exact linksFirst_calcTick g t now tt h
  | Restart =>
    simp only [step, hreq]
    exact renew_linksFirst g gen
  | Calc =>
    simp only [step, hreq]
    by_cases hthr : now - t < 1/5
    · rw [if_pos hthr]
      exact h
    · rw [if_neg hthr]
      exact linksFirst_calcTick g t now tt h
  | ChangeFlow fid rd =>
    cases rd with
    | To1 =>
      simp only [step, hreq, Game.change_flow, tagDir]
      rw [linksFirst_congr (kinds_changeFlowList g.flows fid (Dir.To1 pr.player)), h]
    | To2 =>
      simp only [step, hreq, Game.change_flow, tagDir]
      rw [linksFirst_congr (kinds_changeFlowList g.flows fid (Dir.To2 pr.player)), h]

theorem validTrace_mono : ∀ (evs : List Ev) (a b : ℚ), b ≤ a → ValidTrace a evs →
    ValidTrace b evs := by
  intro evs
  cases evs with
  | nil => intro a b _ _; trivial
  | cons e rest =>
    intro a b hba h
    exact ⟨le_trans hba h.1, h.2.1, h.2.2⟩

theorem run_inv (tt : Node → Node → ℚ) :
    ∀ (evs : List Ev) (g : Game) (t : ℚ), Inv g → ValidTrace t evs →
      Inv (run tt g t evs).1 := by
  intro evs
  induction evs with
  | nil => intro g t hInv _; simpa [run] using hInv
  | cons e rest ih =>
    intro g t hInv hvt
    simp only [run]
    have hs := step_inv g t e.now tt e.gen e.pr hInv hvt.1 hvt.2.1
    exact ih _ _ hs.1 (validTrace_mono rest e.now _ hs.2 hvt.2.2)

theorem run_linksFirst (tt : Node → Node → ℚ) :
    ∀ (evs : List Ev) (g : Game) (t : ℚ), linksFirst g.flows = true →
      linksFirst ((run tt g t evs).1).flows = true := by
  intro evs
  induction evs with
  | nil => intro g t h; simpa [run] using h
  | cons e rest ih =>
    intro g t h
    simp only [run]
    exact ih _ _ (step_linksFirst g t e.now tt e.gen e.pr h)

theorem exGame_inv : Inv exGame := by
  constructor
  · intro n hn
    rcases List.mem_cons.mp hn with h | hn
    · rw [h]; norm_num [exNode0]
    rcases List.mem_cons.mp hn with h | hn
    · rw [h]; norm_num [exNode1]
    · cases hn
  · intro f hf
    rcases List.mem_cons.mp hf with h | hf
    · rw [h]
      exact ⟨le_refl 0, by intro b hb; cases hb⟩
    rcases List.mem_cons.mp hf with h | hf
    · rw [h]
      exact ⟨by norm_num, trivial⟩
    rcases List.mem_cons.mp hf with h | hf
    · rw [h]
      exact ⟨le_refl 0, trivial⟩
    · cases hf


/-! ### Characterisation of change_flow -/

theorem changeFlowList_not_found (fid : FlowId) (nd : Dir) :
    ∀ fl : List Flow, (∀ x ∈ fl, x.id ≠ fid) → changeFlowList fl fid nd = (fl, []) := by
  intro fl
  induction fl with
  | nil => intro _; rfl
  | cons f rest ih =>
    intro hmem
    have hid : ¬ f.id = fid := hmem f (by simp)
    simp only [changeFlowList, if_neg hid]
    rw [ih (fun x hx => hmem x (by simp [hx]))]

theorem changeFlowList_found_node (fid : FlowId) (nd : Dir) (nid : NodeId) :
    ∀ (pre : List Flow) (f : Flow) (post : List Flow), (∀ x ∈ pre, x.id ≠ fid) →
      f.id = fid → f.host = FlowHost.Node nid →
      changeFlowList (pre ++ f :: post) fid nd = (pre ++ f :: post, []) := by
  intro pre
  induction pre with
  | nil =>
    intro f post _ hid hh
    simp only [List.nil_append, changeFlowList, if_pos hid, hh]
  | cons p rest ih =>
    intro f post hmem hid hh
    have hp : ¬ p.id = fid := hmem p (by simp)
    simp only [List.cons_append, changeFlowList, if_neg hp, List.append_eq]
    rw [ih f post (fun x hx => hmem x (by simp [hx])) hid hh]

theorem changeFlowList_found_link (fid : FlowId) (nd : Dir) (lid : LinkId) (d0 : Dir)
    (bs : List Blob) :
    ∀ (pre : List Flow) (f : Flow) (post : List Flow), (∀ x ∈ pre, x.id ≠ fid) →
      f.id = fid → f.host = FlowHost.Link lid d0 bs →
      changeFlowList (pre ++ f :: post) fid nd =
        (pre ++ (⟨f.id, f.amount, FlowHost.Link lid nd []⟩ : Flow) :: post,
         [(⟨f.id, f.amount, FlowHost.Link lid nd []⟩ : Flow)]) := by
  intro pre
  induction pre with
  | nil =>
    intro f post _ hid hh
    simp only [List.nil_append, changeFlowList, if_pos hid, hh]
  | cons p rest ih =>
    intro f post hmem hid hh
    have hp : ¬ p.id = fid := hmem p (by simp)
    simp only [List.cons_append, changeFlowList, if_neg hp, List.append_eq]
    rw [ih f post (fun x hx => hmem x (by simp [hx])) hid hh]

/-! ### The tick reconciles directed link-flow amounts with their queues -/

theorem linksFirst_cons_node {f : Flow} {rest : List Flow}
    (hk : isNodeHost f.host = true) (h : linksFirst (f :: rest) = true) :
    ∀ x ∈ rest, isNodeHost x.host = true := by
  simp only [linksFirst, hk, if_true] at h
  rw [List.all_eq_true] at h
  intro x hx
  simpa using h x hx

theorem linksFirst_cons_link {f : Flow} {rest : List Flow}
    (hk : isNodeHost f.host = false) (h : linksFirst (f :: rest) = true) :
    linksFirst rest = true := by
  simpa [linksFirst, hk] using h

theorem pass3_reconciles (ns : List Node) (ls : List Link) (now : ℚ)
    (tt : Node → Node → ℚ) :
    ∀ (fl : List Flow) (out : OutflowMap), linksFirst fl = true →
      ∀ f ∈ pass3 ns ls now tt out fl, ∀ lid d bs, f.host = FlowHost.Link lid d bs →
        d.isSet = true → f.amount = (bs.map Blob.amount).sum := by
  intro fl
  induction fl with
  | nil => intro out _ f hf; cases hf
  | cons f rest ih =>
    intro out hlf x hx lid d bs hh hd
    cases hfh : f.host with
    | Node nid =>
      have hall := linksFirst_cons_node (by simp [isNodeHost, hfh]) hlf
      simp only [pass3, hfh] at hx
      rcases List.mem_cons.mp hx with h | h
      · subst h
        rw [hfh] at hh
        cases hh
      · have := hall x h
        rw [hh] at this
        simp [isNodeHost] at this
    | Link flid fdir fblobs =>
      have hrest := linksFirst_cons_link (by simp [isNodeHost, hfh]) hlf
      cases hdir : fdir with
      | None =>
        rw [hdir] at hfh
        simp only [pass3, hfh, Dir.isSet, Bool.false_eq_true, if_false] at hx
        rcases List.mem_cons.mp hx with h | h
        · subst h
          rw [hfh] at hh
          cases hh
          simp [Dir.isSet] at hd
        · exact ih _ hrest x h lid d bs hh hd
      | To1 p =>
        rw [hdir] at hfh
        simp only [pass3, hfh, Dir.isSet, if_true] at hx
        rcases List.mem_cons.mp hx with h | h
        · subst h
          simp only at hh
          cases hh
          rfl
        · exact ih _ hrest x h lid d bs hh hd
      | To2 p =>
        rw [hdir] at hfh
        simp only [pass3, hfh, Dir.isSet, if_true] at hx
        rcases List.mem_cons.mp hx with h | h
        · subst h
          simp only at hh
          cases hh
          rfl
        · exact ih _ hrest x h lid d bs hh hd

theorem calcTick_reconciles (g : Game) (old now : ℚ) (tt : Node → Node → ℚ)
    (h : linksFirst g.flows = true) :
    ∀ f ∈ (g.calcTick old now tt).1.flows, ∀ lid d bs, f.host = FlowHost.Link lid d bs →
      d.isSet = true → f.amount = (bs.map Blob.amount).sum := by
  have h1 : linksFirst (pass1 g.nodes g.links now (now - old) (fun _ => 0) g.flows) = true := by
    rw [linksFirst_congr (kinds_pass1 g.nodes g.links now (now - old) g.flows _), h]
  have h2 : linksFirst (pass2 g.nodes g.links (now - old) (fun _ => none)
      (pass1 g.nodes g.links now (now - old) (fun _ => 0) g.flows)).1 = true := by
    rw [linksFirst_congr (kinds_pass2 g.nodes g.links (now - old) _ _), h1]
  exact pass3_reconciles g.nodes g.links now tt _ _ h2

/-! ### Claim theorems -/

/-- C1: for every tick (`Game::calc`) starting from a well-formed world
(node sizes, reservoir amounts and blob amounts all nonnegative, as in every
reachable world) with elapsed time `dt ≥ 0`, after the tick every node-hosted
flow still has `amount ≥ 0`; and under any valid sequence of commands and
ticks a node's reservoir never goes negative. -/
theorem c1_reservoirs_never_negative :
    (∀ (g : Game) (old now : ℚ) (tt : Node → Node → ℚ), Inv g → old ≤ now →
      ∀ f ∈ (g.calcTick old now tt).1.flows, ∀ nid, f.host = FlowHost.Node nid →
        0 ≤ f.amount) ∧
    (∀ (tt : Node → Node → ℚ) (evs : List Ev) (g : Game) (t : ℚ), Inv g →
      ValidTrace t evs → ∀ f ∈ (run tt g t evs).1.flows, ∀ nid,
        f.host = FlowHost.Node nid → 0 ≤ f.amount) := by
  constructor
  · intro g old now tt hInv hle f hf nid _
    exact ((calcTick_inv g old now tt hInv hle).2 f hf).1
  · intro tt evs g t hInv hvt f hf nid _
    exact ((run_inv tt evs g t hInv hvt).2 f hf).1

/-- Witness for C1 at the concrete tiny world. -/
theorem c1_witness :
    (∀ f ∈ (exGame.calcTick 0 1 exTT).1.flows, ∀ nid, f.host = FlowHost.Node nid →
      0 ≤ f.amount) ∧
    (∀ f ∈ (run exTT exGame 0 [⟨⟨1, .Calc⟩, 1, exGen⟩]).1.flows, ∀ nid,
      f.host = FlowHost.Node nid → 0 ≤ f.amount) := by
  constructor
  · exact c1_reservoirs_never_negative.1 exGame 0 1 exTT exGame_inv (by norm_num)
  · refine c1_reservoirs_never_negative.2 exTT [⟨⟨1, .Calc⟩, 1, exGen⟩] exGame 0
      exGame_inv ⟨by norm_num, ?_, trivial⟩
    intro d hd
    rcases List.mem_cons.mp hd with h | h
    · rw [h]; norm_num
    · cases h

/-- C2: the outflow-application step of the tick (the node branch of
`Game::calc`'s second loop): when the total requested outflow is at most the
reservoir amount the full total is subtracted, otherwise every requesting
draw is scaled by `factor = available / requested` and the reservoir is set
exactly to zero. -/
theorem c2_outflow_application (a : ℚ) (l : List ℚ) :
    (l.sum ≤ a → (applyOutflow a l).1 = a - l.sum) ∧
    (a < l.sum → (applyOutflow a l).1 = 0 ∧
      (applyOutflow a l).2 = l.map (fun x => x * (a / l.sum))) := by
  constructor
  · intro hle
    rcases lt_or_eq_of_le hle with h | h
    · unfold applyOutflow
      rw [if_pos h]
    · unfold applyOutflow
      rw [if_neg (by rw [h]; exact lt_irrefl a)]
      simp [← h]
  · intro hlt
    unfold applyOutflow
    rw [if_neg (by linarith)]
    exact ⟨rfl, rfl⟩

/-- Witness for C2 on concrete draw lists. -/
theorem c2_witness :
    (applyOutflow 5 [1, 2]).1 = 5 - ([1, 2] : List ℚ).sum ∧
    (applyOutflow 1 [1, 2]).1 = 0 ∧
    (applyOutflow 1 [1, 2]).2 = ([1, 2] : List ℚ).map (fun x => x * (1 / ([1, 2] : List ℚ).sum)) := by
  refine ⟨?_, ?_, ?_⟩
  · exact (c2_outflow_application 5 [1, 2]).1 (by norm_num [List.sum_cons, List.sum_nil])
  · exact ((c2_outflow_application 1 [1, 2]).2 (by norm_num [List.sum_cons, List.sum_nil])).1
  · exact ((c2_outflow_application 1 [1, 2]).2 (by norm_num [List.sum_cons, List.sum_nil])).2

/-- C3: a `Calc` (tick) command arriving less than 200 ms (0.2 s) after the
last tick timestamp yields `Nop` addressed to no one, with the world and the
last-tick timestamp unchanged. -/
theorem c3_tick_throttled (g : Game) (t now : ℚ) (tt : Node → Node → ℚ) (gen : Gen)
    (p : PlayerId) (h : now - t < 1/5) :
    step g t now tt gen ⟨p, .Calc⟩ = (g, t, ⟨Address.None, Response.Nop⟩) := by
  simp only [step]
  rw [if_pos h]

/-- Witness for C3 at the concrete tiny world, 0.1 s after the last tick. -/
theorem c3_witness :
    step exGame 0 (1/10) exTT exGen ⟨1, .Calc⟩ = (exGame, 0, ⟨Address.None, Response.Nop⟩) :=
  c3_tick_throttled exGame 0 (1/10) exTT exGen 1 (by norm_num)

/-- C4 counterexample: on an unknown flow id the engine's reply is the
`FlowUpdate` variant carrying an empty list — not the `Nop` variant the claim
names. -/
theorem c4_counterexample :
    (step exGame 0 1 exTT exGen ⟨1, .ChangeFlow 99 .To1⟩).2.2.response =
      Response.FlowUpdate [] ∧
    (step exGame 0 1 exTT exGen ⟨1, .ChangeFlow 99 .To1⟩).2.2.response ≠ Response.Nop := by
  constructor
  · rfl
  · decide

/-- C4 (amended): a `ChangeFlow` whose flow id is unknown or names a
node-hosted flow yields a `FlowUpdate` with an empty flow list addressed to
no one, and the world is unchanged. -/
theorem c4_invalid_changeflow (g : Game) (t now : ℚ) (tt : Node → Node → ℚ) (gen : Gen)
    (p : PlayerId) (fid : FlowId) (rd : ReqDir)
    (h : (∀ x ∈ g.flows, x.id ≠ fid) ∨
      ∃ pre f post nid, g.flows = pre ++ f :: post ∧ (∀ x ∈ pre, x.id ≠ fid) ∧
        f.id = fid ∧ f.host = FlowHost.Node nid) :
    step g t now tt gen ⟨p, .ChangeFlow fid rd⟩ =
      (g, t, ⟨Address.None, Response.FlowUpdate []⟩) := by
  have key : ∀ nd : Dir, changeFlowList g.flows fid nd = (g.flows, []) := by
    intro nd
    rcases h with h | ⟨pre, f, post, nid, hsplit, hpre, hid, hh⟩
    · exact changeFlowList_not_found fid nd g.flows h
    · rw [hsplit]
      exact changeFlowList_found_node fid nd nid pre f post hpre hid hh
  simp [step, Game.change_flow, key]

/-- Witness for C4 (amended) at the concrete tiny world, with an unknown id. -/
theorem c4_witness :
    step exGame 0 1 exTT exGen ⟨1, .ChangeFlow 99 .To1⟩ =
      (exGame, 0, ⟨Address.None, Response.FlowUpdate []⟩) :=
  c4_invalid_changeflow exGame 0 1 exTT exGen 1 99 .To1 (Or.inl (by decide))

/-- C5: a `ChangeFlow` naming an existing link-hosted flow sets that flow's
direction to the requested direction tagged with the requesting player's id,
replaces its blob queue with the empty queue, and broadcasts to all players
an update containing exactly that one changed flow. -/
theorem c5_changeflow_link (g : Game) (t now : ℚ) (tt : Node → Node → ℚ) (gen : Gen)
    (p : PlayerId) (fid : FlowId) (rd : ReqDir) (pre post : List Flow) (f : Flow)
    (lid : LinkId) (d0 : Dir) (bs : List Blob)
    (hsplit : g.flows = pre ++ f :: post) (hpre : ∀ x ∈ pre, x.id ≠ fid)
    (hid : f.id = fid) (hh : f.host = FlowHost.Link lid d0 bs) :
    step g t now tt gen ⟨p, .ChangeFlow fid rd⟩ =
      ((⟨g.nodes, g.links,
          pre ++ (⟨f.id, f.amount, FlowHost.Link lid (tagDir rd p) []⟩ : Flow) :: post⟩ : Game),
       t,
       ⟨Address.All,
        Response.FlowUpdate [⟨f.id, f.amount, FlowHost.Link lid (tagDir rd p) []⟩]⟩) := by
  simp only [step]
  simp only [Game.change_flow, hsplit,
    changeFlowList_found_link fid (tagDir rd p) lid d0 bs pre f post hpre hid hh]
  simp

/-- Witness for C5 at the concrete tiny world: player 3 redirects flow 0. -/
theorem c5_witness :
    step exGame 0 1 exTT exGen ⟨3, .ChangeFlow 0 .To2⟩ =
      ((⟨[exNode0, exNode1], [exLink0],
          [⟨0, 0, FlowHost.Link 0 (tagDir .To2 3) []⟩, ⟨1, 5, .Node 0⟩,
           ⟨2, 0, .Node 1⟩]⟩ : Game),
       0,
       ⟨Address.All, Response.FlowUpdate [⟨0, 0, FlowHost.Link 0 (tagDir .To2 3) []⟩]⟩) :=
  c5_changeflow_link exGame 0 1 exTT exGen 3 0 .To2 []
    [⟨1, 5, .Node 0⟩, ⟨2, 0, .Node 1⟩] ⟨0, 0, .Link 0 (.To1 1) []⟩ 0 (.To1 1) []
    rfl (by simp) rfl rfl

/-- C6 counterexample: at the concrete tiny world the single event emitted
for `NewPlayer` is a `GameState` snapshot addressed to the joining player
alone — not a broadcast to all players, and not a welcome event (the
`Response` type has no welcome variant). -/
theorem c6_counterexample :
    (step exGame 0 1 exTT exGen ⟨1, .NewPlayer⟩).2.2.whom = Address.Player 1 ∧
    (step exGame 0 1 exTT exGen ⟨1, .NewPlayer⟩).2.2.response =
      Response.GameState (exGame.calcTick 0 1 exTT).1 ∧
    (Address.Player 1 : Address) ≠ Address.All := by
  exact ⟨rfl, rfl, by decide⟩

/-- C6 (amended): handling `NewPlayer` advances the tick and sends the
joining player a private full `GameState` snapshot; it is the only emitted
event — no location assignment, no separate welcome, no broadcast. -/
theorem c6_newplayer_private_snapshot (g : Game) (t now : ℚ) (tt : Node → Node → ℚ)
    (gen : Gen) (p : PlayerId) :
    step g t now tt gen ⟨p, .NewPlayer⟩ =
      ((g.calcTick t now tt).1, now,
       ⟨Address.Player p, Response.GameState (g.calcTick t now tt).1⟩) := rfl

/-- C7 counterexample: at the concrete tiny world (whose link flow is
attributed to player 1), a `PlayerExit` for player 1 leaves the world —
including that attribution — untouched and broadcasts nothing: the
dispatcher only unregisters the connection. -/
theorem c7_counterexample :
    (handleServerEvent [1, 2] exGame 0 0 exTT exGen (.PlayerExit 1)).2.1 = exGame ∧
    (⟨0, 0, FlowHost.Link 0 (Dir.To1 1) []⟩ : Flow) ∈
      (handleServerEvent [1, 2] exGame 0 0 exTT exGen (.PlayerExit 1)).2.1.flows ∧
    (handleServerEvent [1, 2] exGame 0 0 exTT exGen (.PlayerExit 1)).2.2.2 = [] := by
  refine ⟨rfl, ?_, rfl⟩
  decide

/-- C7 (amended): `PlayerExit` is handled entirely by the dispatcher: the
player's connection is removed from the delivery registry, no command is
forwarded to the engine, the world (including flow-direction attributions to
that player) is unchanged, and nothing is broadcast. -/
theorem c7_playerexit_dispatcher_only (players : List PlayerId) (g : Game)
    (t now : ℚ) (tt : Node → Node → ℚ) (gen : Gen) (i : PlayerId) :
    handleServerEvent players g t now tt gen (.PlayerExit i) =
      (players.filter (fun p => p != i), g, t, []) := rfl

/-- C9: in every reachable world — freshly generated, restarted, or after
any sequence of commands and ticks — every link-hosted flow precedes every
node-hosted flow in the flows collection. -/
theorem c9_links_precede_nodes :
    (∀ (nodes : List Node) (links : List Link),
      linksFirst (gen_flows nodes links) = true) ∧
    (∀ (tt : Node → Node → ℚ) (evs : List Ev) (g : Game) (t : ℚ),
      linksFirst g.flows = true → linksFirst ((run tt g t evs).1).flows = true) :=
  ⟨gen_flows_linksFirst, run_linksFirst⟩

/-- Witness for C9: a fresh generation and a run over the tiny world. -/
theorem c9_witness :
    linksFirst (gen_flows [exNode0] [exLink0]) = true ∧
    linksFirst ((run exTT exGame 0 [⟨⟨1, .GetState⟩, 1, exGen⟩]).1).flows = true := by
  constructor
  · exact c9_links_precede_nodes.1 [exNode0] [exLink0]
  · exact c9_links_precede_nodes.2 exTT [⟨⟨1, .GetState⟩, 1, exGen⟩] exGame 0 (by decide)

/-- C10: `change_flow` on an existing link-hosted flow returns (and hence
broadcasts) the flow with its pre-change amount but an empty blob queue; the
amount is reconciled to the sum of queued blob amounts only by the next
tick, whose third loop sets every directed link flow's amount to its blob
sum. -/
theorem c10_stale_amount_until_tick :
    (∀ (g : Game) (fid : FlowId) (nd : Dir) (pre post : List Flow) (f : Flow)
      (lid : LinkId) (d0 : Dir) (bs : List Blob),
      g.flows = pre ++ f :: post → (∀ x ∈ pre, x.id ≠ fid) → f.id = fid →
      f.host = FlowHost.Link lid d0 bs →
      (g.change_flow fid nd).2 = [⟨f.id, f.amount, FlowHost.Link lid nd []⟩]) ∧
    (∀ (g : Game) (old now : ℚ) (tt : Node → Node → ℚ), linksFirst g.flows = true →
      ∀ f ∈ (g.calcTick old now tt).1.flows, ∀ lid d bs,
        f.host = FlowHost.Link lid d bs → d.isSet = true →
        f.amount = (bs.map Blob.amount).sum) := by
  constructor
  · intro g fid nd pre post f lid d0 bs hsplit hpre hid hh
    simp only [Game.change_flow, hsplit,
      changeFlowList_found_link fid nd lid d0 bs pre f post hpre hid hh]
  · exact calcTick_reconciles

/-- Witness for C10 at the concrete tiny world. -/
theorem c10_witness :
    (exGame.change_flow 0 (Dir.To2 3)).2 = [⟨0, 0, FlowHost.Link 0 (Dir.To2 3) []⟩] ∧
    ∀ f ∈ (exGame.calcTick 0 1 exTT).1.flows, ∀ lid d bs,
      f.host = FlowHost.Link lid d bs → d.isSet = true →
      f.amount = (bs.map Blob.amount).sum := by
  constructor
  · exact c10_stale_amount_until_tick.1 exGame 0 (Dir.To2 3) []
      [⟨1, 5, .Node 0⟩, ⟨2, 0, .Node 1⟩] ⟨0, 0, .Link 0 (.To1 1) []⟩ 0 (.To1 1) []
      rfl (by simp) rfl rfl
  · exact c10_stale_amount_until_tick.2 exGame 0 1 exTT (by decide)

end Flid
